import Mathlib

/-!
Verification of the recipe-manager core (`src/recipe_manager.py`) against its
natural-language specification.

The embedding is shallow:

* Python strings are modelled as `List Char` (ASCII fragment; `str.strip`,
  `str.split`, `str.isdigit` are modelled on the whitespace and digit
  characters the application actually meets).
* Python floats are modelled as exact unreduced fractions over `Nat`
  together with an explicit sign bit (`PyF`).  This mirrors IEEE sign
  semantics (`float("-0")` keeps its sign through multiplication and
  `"%.2f"` formatting) while idealising the finite binary mantissa as exact
  rational arithmetic; two-decimal formatting rounds halves up where CPython
  rounds the underlying binary double.  None of the verified properties
  depends on that difference.
* The stateful GUI methods (`save_recipe`, `delete_recipe`, `select_recipe`,
  `new_recipe`, `scale_recipe`) become pure state-passing functions on an
  `AppState`; an early `return` after a warning dialog becomes a result that
  carries the unchanged state together with the error that was reported.
-/

/-! ## Decimal digits -/

/-- `Nat.digitChar` restricted to base 10, written out so that every proof
about it is by cases.  Mirrors the digit characters CPython produces when
formatting a number. -/
def digitChar : Nat → Char
  | 0 => '0'
  | 1 => '1'
  | 2 => '2'
  | 3 => '3'
  | 4 => '4'
  | 5 => '5'
  | 6 => '6'
  | 7 => '7'
  | 8 => '8'
  | 9 => '9'
  | _ => '*'

/-- Numeric value of a decimal digit character. -/
def digVal (c : Char) : Nat := c.toNat - 48

/-- Value of a big-endian list of decimal digit characters, the way
`float()` accumulates the integer part of its input. -/
def parseNatChars (s : List Char) : Nat :=
  s.foldl (fun a c => a * 10 + digVal c) 0

/-- Decimal digits of `n`, most significant first, with explicit structural
fuel (the fuel argument makes the definition kernel-computable). -/
def natDigits : Nat → Nat → List Char
  | 0, _ => []
  | fuel + 1, n =>
    if n < 10 then [digitChar n]
    else natDigits fuel (n / 10) ++ [digitChar (n % 10)]

/-- Decimal representation of `n`, as printed by `"%d"`. -/
def natChars (n : Nat) : List Char := natDigits (n + 1) n

/-! ## Python string primitives -/

/-- Split a character list at every character satisfying `p`, keeping empty
pieces, as Python's `str.split(sep)` does for a one-character separator. -/
def splitWhen (p : Char → Bool) : List Char → List (List Char)
  | [] => [[]]
  | c :: cs =>
    match splitWhen p cs with
    | [] => [[c]]
    | l :: ls => if p c then [] :: l :: ls else (c :: l) :: ls

/-- Python `line.split('\n')`. -/
def splitNl (s : List Char) : List (List Char) :=
  splitWhen (fun c => c = '\n') s

/-- Python `str.split()` with no argument: split on whitespace runs,
dropping empty pieces. -/
def pySplit (s : List Char) : List (List Char) :=
  (splitWhen Char.isWhitespace s).filter (fun l => !l.isEmpty)

/-- Python `str.strip()`: drop leading and trailing whitespace. -/
def pyStrip (s : List Char) : List Char :=
  ((s.dropWhile Char.isWhitespace).reverse.dropWhile Char.isWhitespace).reverse

/-- `str.strip` lifted back to `String` for the store operations. -/
def pyStripS (s : String) : String := List.asString (pyStrip s.data)

/-- `token.replace('.', '').replace(',', '')` (line 352 of the source). -/
def stripSeps (s : List Char) : List Char :=
  s.filter (fun c => !(c = '.' || c = ','))

/-- `token.replace(',', '')` (line 354 of the source). -/
def removeCommas (s : List Char) : List Char :=
  s.filter (fun c => !(c = ','))

/-- Python `str.isdigit()`: non-empty and all digits. -/
def isDigits (s : List Char) : Bool := !s.isEmpty && s.all Char.isDigit

/-- The numeric-quantity test of line 353 of the source:
`first_part.isdigit() or (first_part.startswith('-') and first_part[1:].isdigit())`
applied to the first token with `'.'` and `','` stripped. -/
def isNumericTok (s : List Char) : Bool :=
  isDigits (stripSeps s) ||
    (match stripSeps s with
     | '-' :: r => isDigits r
     | _ => false)

/-! ## Python float values -/

/-- A Python float as the scaler meets it: a sign bit plus an exact
non-negative magnitude `num / den` (`den` is positive, the fraction is kept
unreduced so that all arithmetic is structural on `Nat`). -/
structure PyF where
  neg : Bool
  num : Nat
  den : Nat
deriving DecidableEq

/-- Float multiplication: signs combine by exclusive or (exactly the IEEE
sign rule, so `-0.0` behaves as in CPython), magnitudes multiply. -/
def PyF.mul (a b : PyF) : PyF := ⟨a.neg.xor b.neg, a.num * b.num, a.den * b.den⟩

/-- The float `1.0`, the scale factor when new and original servings agree. -/
def pyOne : PyF := ⟨false, 1, 1⟩

/-- The float `2.0`, the scale factor of the spec's worked examples. -/
def pyTwo : PyF := ⟨false, 2, 1⟩

/-- Magnitude of `x` in hundredths, rounded half-up:
`(200 * num + den) / (2 * den)` is `⌊100 * num / den + 1 / 2⌋`. -/
def cents (x : PyF) : Nat := (200 * x.num + x.den) / (2 * x.den)

/-- Python `f"{amount:.2f}"`: optional sign (kept even when the magnitude
rounds to zero, as CPython does for negatively signed floats), the integer
part, a point, and exactly two fractional digits. -/
def format2 (x : PyF) : List Char :=
  (if x.neg then ['-'] else []) ++
    natChars (cents x / 100) ++ '.' :: digitChar (cents x / 10 % 10) :: [digitChar (cents x % 10)]

/-- Magnitude part of `float(s)` on the character set reachable from the
numeric-token test: an optional run of digits, an optional point, an
optional run of digits, at least one digit overall.  Anything else raises
`ValueError`, modelled as `none`. -/
def pyMag? (s : List Char) : Option PyF :=
  match s.dropWhile Char.isDigit with
  | [] =>
    if (s.takeWhile Char.isDigit).isEmpty then none
    else some ⟨false, parseNatChars (s.takeWhile Char.isDigit), 1⟩
  | '.' :: f =>
    if f.all Char.isDigit && (!(s.takeWhile Char.isDigit).isEmpty || !f.isEmpty) then
      some ⟨false, parseNatChars (s.takeWhile Char.isDigit) * 10 ^ f.length + parseNatChars f,
        10 ^ f.length⟩
    else none
  | _ => none

/-- Python `float(s)` on the scaler's inputs: an optional leading sign
followed by a magnitude. -/
def pyFloat? (s : List Char) : Option PyF :=
  match s with
  | '-' :: r => (pyMag? r).map (fun m => ⟨true, m.num, m.den⟩)
  | '+' :: r => pyMag? r
  | _ => pyMag? s

/-! ## The ingredient scaler (source lines 345-361) -/

/-- The body of the per-line loop of `scale_recipe`, applied to one already
stripped, non-empty line.  The `[]` branch mirrors the `IndexError` arm of
the source's `try`/`except`; a failing `float()` call lands in the `none`
branch, mirroring the `ValueError` arm. -/
def scaleLine (factor : PyF) (line : List Char) : List Char :=
  match pySplit line with
  | [] => line
  | tok :: rest =>
    if isNumericTok tok then
      match pyFloat? (removeCommas tok) with
      | some x => format2 (x.mul factor) ++ ' ' :: List.intercalate [' '] rest
      | none => line
    else line

/-- The whole ingredient transform of `scale_recipe`: split on newlines,
strip each line, drop blank lines, scale each remaining line, rejoin with
newlines. -/
def scaleIngredients (factor : PyF) (text : List Char) : List Char :=
  List.intercalate ['\n']
    ((((splitNl text).map pyStrip).filter (fun l => !l.isEmpty)).map (scaleLine factor))

/-- The spec's pass-through condition for one (already stripped) line: the
first token is not recognized as numeric, or parsing it fails.  Decidable,
so that concrete lines can be checked by evaluation. -/
def lineUnscaled (line : List Char) : Bool :=
  match pySplit line with
  | [] => true
  | tok :: _ => !isNumericTok tok || (pyFloat? (removeCommas tok)).isNone

/-! ## The recipe store (source lines 31-45, 247-320, 322-362) -/

/-- The `Recipe` class of the source. -/
structure Recipe where
  name : String
  ingredients : String
  instructions : String
  servings : Int
deriving DecidableEq

/-- The store-relevant state of the application window: the recipe list and
the index of the currently selected recipe (`self.current_recipe` is an
object reference; here it is the recipe's position, `none` for `None`). -/
structure AppState where
  recipes : List Recipe
  current : Option Nat
deriving DecidableEq

/-- The form fields read by `save_recipe` from the editor widgets. -/
structure RecipeForm where
  name : String
  ingredients : String
  instructions : String
  servings : Int
deriving DecidableEq

/-- The distinct early-return warnings of `save_recipe`.  The first four are
the validation errors; `duplicateName` is the uniqueness check. -/
inductive SaveError
  | emptyName
  | emptyIngredients
  | emptyInstructions
  | nonPositiveServings
  | duplicateName
deriving DecidableEq

/-- Whether a `save_recipe` error is one of the four field validations. -/
def SaveError.isValidation : SaveError → Bool
  | .duplicateName => false
  | _ => true

/-- `save_recipe` (source lines 247-299): strip the form fields, validate,
check name uniqueness only when no recipe is selected, then either update
the selected recipe in place or append a new one.  On an early return the
state is handed back unchanged next to the reported error. -/
def save_recipe (st : AppState) (form : RecipeForm) : AppState × Option SaveError :=
  let name := pyStripS form.name
  let ingredients := pyStripS form.ingredients
  let instructions := pyStripS form.instructions
  let servings := form.servings
  if name.isEmpty then (st, some SaveError.emptyName)
  else if ingredients.isEmpty then (st, some SaveError.emptyIngredients)
  else if instructions.isEmpty then (st, some SaveError.emptyInstructions)
  else if servings ≤ 0 then (st, some SaveError.nonPositiveServings)
  else
    match st.current with
    | none =>
      if st.recipes.any (fun r => r.name == name) then (st, some SaveError.duplicateName)
      else
        (⟨st.recipes ++ [⟨name, ingredients, instructions, servings⟩],
          some st.recipes.length⟩, none)
    | some i =>
      (⟨st.recipes.set i ⟨name, ingredients, instructions, servings⟩, some i⟩, none)

/-- `select_recipe` (source lines 228-245): select the first recipe whose
name matches the clicked list item. -/
def select_recipe (st : AppState) (name : String) : AppState :=
  match st.recipes.findIdx? (fun r => r.name == name) with
  | some i => ⟨st.recipes, some i⟩
  | none => st

/-- `new_recipe` (source lines 376-384): clear the selection. -/
def new_recipe (st : AppState) : AppState := ⟨st.recipes, none⟩

/-- `delete_recipe` (source lines 301-320), confirmed path: remove the
selected recipe and clear the selection. -/
def delete_recipe (st : AppState) : AppState :=
  match st.current with
  | none => st
  | some i => ⟨st.recipes.eraseIdx i, none⟩

/-- The early-return warnings of `scale_recipe`. -/
inductive ScaleError
  | noSelection
  | invalidServings
deriving DecidableEq

/-- `scale_recipe` (source lines 322-362): refuse when nothing is selected
or the stored servings are non-positive; otherwise scale the ingredient
editor text by `newServings / servings` and update the stored servings.
Returns the state, the ingredient editor text, and the error, all three
unchanged on an early return. -/
def scale_recipe (st : AppState) (newServings : Int) (ingText : String) :
    AppState × String × Option ScaleError :=
  match st.current with
  | none => (st, ingText, some ScaleError.noSelection)
  | some i =>
    match st.recipes[i]? with
    | none => (st, ingText, some ScaleError.noSelection)
    | some r =>
      if r.servings ≤ 0 then (st, ingText, some ScaleError.invalidServings)
      else
        (⟨st.recipes.set i ⟨r.name, r.ingredients, r.instructions, newServings⟩, st.current⟩,
          List.asString
            (scaleIngredients ⟨decide (newServings < 0), newServings.natAbs, r.servings.toNat⟩
              ingText.data),
          none)

/-! ## Persistence (source lines 187-215) -/

/-- One record of the persisted JSON list: exactly the four keyword
arguments `Recipe(**record)` expects. -/
structure StoredRecipe where
  name : String
  ingredients : String
  instructions : String
  servings : Int
deriving DecidableEq

/-- `load_recipes` (source line 198): `[Recipe(**record) for record in data]`. -/
def load_recipes (data : List StoredRecipe) : List Recipe :=
  data.map (fun d => ⟨d.name, d.ingredients, d.instructions, d.servings⟩)

/-- `save_recipes` (source line 213): `[vars(recipe) for recipe in recipes]`. -/
def save_recipes (rs : List Recipe) : List StoredRecipe :=
  rs.map (fun r => ⟨r.name, r.ingredients, r.instructions, r.servings⟩)

/-! ## Generic list lemmas -/

theorem intercalate_singleton {α : Type} (sep l : List α) :
    List.intercalate sep [l] = l := by
  simp [List.intercalate, List.intersperse]

theorem intercalate_cons_cons {α : Type} (sep a b : List α) (t : List (List α)) :
    List.intercalate sep (a :: b :: t) = a ++ sep ++ List.intercalate sep (b :: t) := by
  simp [List.intercalate, List.intersperse, List.append_assoc]

theorem splitWhen_ne_nil (p : Char → Bool) (s : List Char) : splitWhen p s ≠ [] := by
  induction s with
  | nil => simp [splitWhen]
  | cons c cs ih =>
    cases h : splitWhen p cs with
    | nil => exact absurd h ih
    | cons l ls => by_cases hp : p c <;> simp [splitWhen, h, hp]

theorem splitWhen_all_not (p : Char → Bool) (s : List Char)
    (h : ∀ c ∈ s, p c = false) : splitWhen p s = [s] := by
  induction s with
  | nil => rfl
  | cons c cs ih =>
    have hcs : splitWhen p cs = [cs] := ih fun a ha => h a (List.mem_cons_of_mem c ha)
    have hc : p c = false := h c (List.mem_cons_self c cs)
    simp [splitWhen, hcs, hc]

theorem splitWhen_append_delim (p : Char → Bool) (pre : List Char) (c : Char)
    (suf : List Char) (hpre : ∀ a ∈ pre, p a = false) (hc : p c = true) :
    splitWhen p (pre ++ c :: suf) = pre :: splitWhen p suf := by
  induction pre with
  | nil =>
    cases h : splitWhen p suf with
    | nil => exact absurd h (splitWhen_ne_nil p suf)
    | cons l ls => simp [splitWhen, h, hc]
  | cons a pre' ih =>
    have hrec : splitWhen p (pre' ++ c :: suf) = pre' :: splitWhen p suf :=
      ih fun x hx => hpre x (List.mem_cons_of_mem a hx)
    have ha : p a = false := hpre a (List.mem_cons_self a pre')
    simp [splitWhen, hrec, ha]

theorem mem_splitWhen_not (p : Char → Bool) (s : List Char) :
    ∀ l ∈ splitWhen p s, ∀ c ∈ l, p c = false := by
  induction s with
  | nil =>
    intro l hl c hc
    simp [splitWhen] at hl
    subst hl
    simp at hc
  | cons a cs ih =>
    intro l hl c hc
    cases h : splitWhen p cs with
    | nil => exact absurd h (splitWhen_ne_nil p cs)
    | cons l0 ls =>
      by_cases hp : p a
      · simp [splitWhen, h, hp] at hl
        rcases hl with hl | hl | hl
        · subst hl; simp at hc
        · subst hl; exact ih l (by rw [h]; exact List.mem_cons_self l ls) c hc
        · exact ih l (by rw [h]; exact List.mem_cons_of_mem l0 hl) c hc
      · simp [splitWhen, h, hp] at hl
        rcases hl with hl | hl
        · subst hl
          rcases List.mem_cons.mp hc with hc | hc
          · subst hc; simpa using hp
          · exact ih l0 (by rw [h]; exact List.mem_cons_self l0 ls) c hc
        · exact ih l (by rw [h]; exact List.mem_cons_of_mem l0 hl) c hc

theorem splitWhen_intercalate (p : Char → Bool) (d : Char) (hd : p d = true)
    (ls : List (List Char)) (h0 : ls ≠ [])
    (h : ∀ l ∈ ls, ∀ c ∈ l, p c = false) :
    splitWhen p (List.intercalate [d] ls) = ls := by
  induction ls with
  | nil => exact absurd rfl h0
  | cons l t ih =>
    cases t with
    | nil =>
      rw [intercalate_singleton]
      exact splitWhen_all_not p l (h l (List.mem_cons_self l []))
    | cons l2 t2 =>
      rw [intercalate_cons_cons]
      have : l ++ [d] ++ List.intercalate [d] (l2 :: t2) =
          l ++ d :: List.intercalate [d] (l2 :: t2) := by
        simp [List.append_assoc]
      rw [this, splitWhen_append_delim p l d _ (h l (List.mem_cons_self l _)) hd,
        ih (by simp) fun x hx => h x (List.mem_cons_of_mem l hx)]

theorem mem_intercalate_sep {d : Char} {ls : List (List Char)} :
    ∀ c ∈ List.intercalate [d] ls, c = d ∨ ∃ l ∈ ls, c ∈ l := by
  induction ls with
  | nil => intro c hc; simp [List.intercalate] at hc
  | cons l t ih =>
    intro c hc
    cases t with
    | nil =>
      rw [intercalate_singleton] at hc
      exact Or.inr ⟨l, List.mem_cons_self l [], hc⟩
    | cons l2 t2 =>
      rw [intercalate_cons_cons, List.append_assoc] at hc
      rcases List.mem_append.mp hc with hc | hc
      · exact Or.inr ⟨l, List.mem_cons_self l _, hc⟩
      · rcases List.mem_cons.mp hc with hc | hc
        · exact Or.inl hc
        · rcases ih c hc with hc | ⟨l', hl', hc⟩
          · exact Or.inl hc
          · exact Or.inr ⟨l', List.mem_cons_of_mem l hl', hc⟩

/-! ## Character facts -/

theorem isDigit_not_ws {c : Char} (h : c.isDigit = true) : c.isWhitespace = false := by
  simp only [Char.isDigit, decide_eq_true_eq, Bool.and_eq_true] at h
  simp only [Char.isWhitespace, Bool.or_eq_false_iff, decide_eq_false_iff_not]
  refine ⟨⟨⟨?_, ?_⟩, ?_⟩, ?_⟩ <;> rintro rfl <;> revert h <;> decide

theorem isDigit_ne_point {c : Char} (h : c.isDigit = true) : (c = '.') = False := by
  simp only [eq_iff_iff, iff_false]
  rintro rfl
  revert h
  decide

theorem isDigit_ne_comma {c : Char} (h : c.isDigit = true) : (c = ',') = False := by
  simp only [eq_iff_iff, iff_false]
  rintro rfl
  revert h
  decide

theorem isDigit_ne_nl {c : Char} (h : c.isDigit = true) : (c = '\n') = False := by
  simp only [eq_iff_iff, iff_false]
  rintro rfl
  revert h
  decide

theorem isDigit_ne_minus {c : Char} (h : c.isDigit = true) : (c = '-') = False := by
  simp only [eq_iff_iff, iff_false]
  rintro rfl
  revert h
  decide

theorem not_ws_ne_nl {c : Char} (h : c.isWhitespace = false) : c ≠ '\n' := by
  rintro rfl
  revert h
  decide

/-! ## Decimal printing and parsing round-trip -/

theorem digitChar_isDigit {n : Nat} (h : n < 10) : (digitChar n).isDigit = true := by
  interval_cases n <;> decide

theorem digVal_digitChar {n : Nat} (h : n < 10) : digVal (digitChar n) = n := by
  interval_cases n <;> decide

theorem natDigits_fuel (f1 : Nat) : ∀ (f2 n : Nat), n < f1 → n < f2 →
    natDigits f1 n = natDigits f2 n := by
  induction f1 with
  | zero => intro f2 n h1 _; omega
  | succ f ih =>
    intro f2 n h1 h2
    cases f2 with
    | zero => omega
    | succ f2' =>
      by_cases hn : n < 10
      · simp [natDigits, hn]
      · have hdiv : n / 10 < n := Nat.div_lt_self (by omega) (by omega)
        simp only [natDigits, hn, if_false]
        rw [ih f2' (n / 10) (by omega) (by omega)]

theorem natChars_eq_step {n : Nat} (h : ¬n < 10) :
    natChars n = natChars (n / 10) ++ [digitChar (n % 10)] := by
  have hdiv : n / 10 < n := Nat.div_lt_self (by omega) (by omega)
  simp only [natChars, natDigits, h, if_false]
  rw [natDigits_fuel n (n / 10 + 1) (n / 10) (by omega) (by omega)]
  rfl

theorem natChars_ne_nil (n : Nat) : natChars n ≠ [] := by
  by_cases h : n < 10
  · simp [natChars, natDigits, h]
  · rw [natChars_eq_step h]
    simp

theorem natChars_all_digit (n : Nat) : ∀ c ∈ natChars n, c.isDigit = true := by
  induction n using Nat.strong_induction_on with
  | _ n ih =>
    intro c hc
    by_cases h : n < 10
    · simp [natChars, natDigits, h] at hc
      subst hc
      exact digitChar_isDigit h
    · rw [natChars_eq_step h] at hc
      rcases List.mem_append.mp hc with hc | hc
      · exact ih (n / 10) (Nat.div_lt_self (by omega) (by omega)) c hc
      · simp at hc
        subst hc
        exact digitChar_isDigit (Nat.mod_lt n (by omega))

theorem parseNatChars_append_digit (a : List Char) (c : Char) :
    parseNatChars (a ++ [c]) = parseNatChars a * 10 + digVal c := by
  simp [parseNatChars, List.foldl_append]

theorem parseNatChars_natChars (n : Nat) : parseNatChars (natChars n) = n := by
  induction n using Nat.strong_induction_on with
  | _ n ih =>
    by_cases h : n < 10
    · simp [natChars, natDigits, h, parseNatChars, digVal_digitChar h]
    · rw [natChars_eq_step h, parseNatChars_append_digit,
        ih (n / 10) (Nat.div_lt_self (by omega) (by omega)),
        digVal_digitChar (Nat.mod_lt n (by omega))]
      omega

/-! ## Stripping lemmas -/

theorem pyStrip_eq_rdrop (s : List Char) :
    pyStrip s = List.rdropWhile Char.isWhitespace (List.dropWhile Char.isWhitespace s) := rfl

theorem mem_pyStrip {s : List Char} {c : Char} (h : c ∈ pyStrip s) : c ∈ s := by
  rw [pyStrip_eq_rdrop] at h
  exact (List.dropWhile_suffix _).subset ((List.rdropWhile_prefix _ _).subset h)

theorem pyStrip_head_not_ws (s : List Char) (h : pyStrip s ≠ []) :
    Char.isWhitespace ((pyStrip s).head h) = false := by
  obtain ⟨t, ht⟩ := List.rdropWhile_prefix Char.isWhitespace (List.dropWhile Char.isWhitespace s)
  have hA : List.dropWhile Char.isWhitespace s ≠ [] := by
    intro hc
    exact h (by rw [pyStrip_eq_rdrop, hc, List.rdropWhile_nil])
  have hhead : (pyStrip s).head? = (List.dropWhile Char.isWhitespace s).head? := by
    conv_rhs => rw [← ht]
    rw [List.head?_append_of_ne_nil _ (by rw [← pyStrip_eq_rdrop]; exact h)]
    rfl
  have h2 := List.head_dropWhile_not Char.isWhitespace s hA
  have h3 : (pyStrip s).head h = (List.dropWhile Char.isWhitespace s).head hA := by
    have e1 := List.head?_eq_head h
    have e2 := List.head?_eq_head hA
    rw [e1, e2] at hhead
    exact Option.some.inj hhead
  rw [h3]
  exact h2

theorem pyStrip_last_not_ws (s : List Char) (h : pyStrip s ≠ []) :
    Char.isWhitespace ((pyStrip s).getLast h) = false := by
  have := List.rdropWhile_last_not Char.isWhitespace
    (List.dropWhile Char.isWhitespace s) (by rw [← pyStrip_eq_rdrop]; exact h)
  simpa using this

theorem pyStrip_eq_self (s : List Char)
    (hh : ∀ h : s ≠ [], Char.isWhitespace (s.head h) = false)
    (hl : ∀ h : s ≠ [], Char.isWhitespace (s.getLast h) = false) :
    pyStrip s = s := by
  by_cases hs : s = []
  · subst hs; rfl
  · have hdrop : List.dropWhile Char.isWhitespace s = s := by
      rw [List.dropWhile_eq_self_iff]
      intro hlen
      have hg : s.get ⟨0, hlen⟩ = s.head hs := by
        rw [List.head_eq_getElem, List.get_eq_getElem]
      rw [hg]
      simp [hh hs]
    rw [pyStrip_eq_rdrop, hdrop, List.rdropWhile_eq_self_iff]
    intro h'
    simp [hl h']

theorem pyStrip_idem (s : List Char) : pyStrip (pyStrip s) = pyStrip s :=
  pyStrip_eq_self (pyStrip s) (pyStrip_head_not_ws s) (pyStrip_last_not_ws s)

theorem dropWhile_append_of_ne_nil {p : Char → Bool} {a : List Char} (b : List Char)
    (h : a.dropWhile p ≠ []) : (a ++ b).dropWhile p = a.dropWhile p ++ b := by
  induction a with
  | nil => simp at h
  | cons x xs ih =>
    by_cases hx : p x
    · rw [List.dropWhile_cons_of_pos hx] at h
      rw [List.cons_append, List.dropWhile_cons_of_pos hx, List.dropWhile_cons_of_pos hx, ih h]
    · rw [List.cons_append, List.dropWhile_cons_of_neg hx, List.dropWhile_cons_of_neg hx,
        List.cons_append]

theorem pyStrip_concat_ws (s : List Char) (c : Char) (hc : Char.isWhitespace c = true) :
    pyStrip (s ++ [c]) = pyStrip s := by
  by_cases h : List.dropWhile Char.isWhitespace s = []
  · have hall : ∀ x ∈ s ++ [c], Char.isWhitespace x = true := by
      intro x hx
      rcases List.mem_append.mp hx with hx | hx
      · exact List.dropWhile_eq_nil_iff.mp h x hx
      · simp at hx
        subst hx
        exact hc
    rw [pyStrip_eq_rdrop, pyStrip_eq_rdrop, h, List.rdropWhile_nil,
      List.dropWhile_eq_nil_iff.mpr hall, List.rdropWhile_nil]
  · rw [pyStrip_eq_rdrop, pyStrip_eq_rdrop, dropWhile_append_of_ne_nil [c] h,
      List.rdropWhile_concat_pos _ _ c hc]

/-! ## Token lemmas -/

theorem mem_pySplit_ne_nil {s t : List Char} (h : t ∈ pySplit s) : t ≠ [] := by
  have := (List.mem_filter.mp h).2
  intro hc
  subst hc
  simp at this

theorem mem_pySplit_not_ws {s t : List Char} (h : t ∈ pySplit s) :
    ∀ c ∈ t, Char.isWhitespace c = false :=
  mem_splitWhen_not Char.isWhitespace s t (List.mem_filter.mp h).1

theorem pySplit_intercalate (toks : List (List Char)) (h0 : toks ≠ [])
    (h1 : ∀ t ∈ toks, t ≠ []) (h2 : ∀ t ∈ toks, ∀ c ∈ t, Char.isWhitespace c = false) :
    pySplit (List.intercalate [' '] toks) = toks := by
  unfold pySplit
  rw [splitWhen_intercalate Char.isWhitespace ' ' (by decide) toks h0 h2]
  rw [List.filter_eq_self]
  intro t ht
  simp [List.isEmpty_iff, h1 t ht]

theorem pySplit_single (t : List Char) (h1 : t ≠ [])
    (h2 : ∀ c ∈ t, Char.isWhitespace c = false) : pySplit t = [t] := by
  have := pySplit_intercalate [t] (by simp) (by simpa using h1) (by simpa using h2)
  rwa [intercalate_singleton] at this

theorem intercalate_cons_ne_nil (sep t : List Char) (ts : List (List Char))
    (h : t ≠ []) : List.intercalate sep (t :: ts) ≠ [] := by
  cases ts with
  | nil => rwa [intercalate_singleton]
  | cons a b =>
    rw [intercalate_cons_cons]
    intro hc
    exact h (List.append_eq_nil.mp (List.append_eq_nil.mp hc).1).1

theorem head?_intercalate_cons (t : List Char) (ts : List (List Char)) (h : t ≠ []) :
    (List.intercalate [' '] (t :: ts)).head? = t.head? := by
  cases ts with
  | nil => rw [intercalate_singleton]
  | cons a b =>
    rw [intercalate_cons_cons, List.append_assoc]
    exact List.head?_append_of_ne_nil t h

theorem getLast?_intercalate_toks (toks : List (List Char)) (h0 : toks ≠ [])
    (h1 : ∀ t ∈ toks, t ≠ []) :
    ∃ t ∈ toks, (List.intercalate [' '] toks).getLast? = t.getLast? := by
  induction toks with
  | nil => exact absurd rfl h0
  | cons t ts ih =>
    cases ts with
    | nil => exact ⟨t, List.mem_cons_self t [], by rw [intercalate_singleton]⟩
    | cons a b =>
      have hX : List.intercalate [' '] (a :: b) ≠ [] :=
        intercalate_cons_ne_nil [' '] a b (h1 a (List.mem_cons_of_mem t (List.mem_cons_self a b)))
      obtain ⟨t', ht', he⟩ := ih (by simp) fun x hx => h1 x (List.mem_cons_of_mem t hx)
      refine ⟨t', List.mem_cons_of_mem t ht', ?_⟩
      rw [intercalate_cons_cons, List.append_assoc,
        List.getLast?_append_of_ne_nil _ (by simp [hX]),
        List.getLast?_append_of_ne_nil _ hX, he]

/-! ## Formatting facts -/

theorem isDigit_ne_plus {c : Char} (h : c.isDigit = true) : (c = '+') = False := by
  simp only [eq_iff_iff, iff_false]
  rintro rfl
  revert h
  decide

theorem takeWhile_append_all {p : Char → Bool} {a : List Char} (b : List Char)
    (h : ∀ c ∈ a, p c = true) : (a ++ b).takeWhile p = a ++ b.takeWhile p := by
  induction a with
  | nil => simp
  | cons x xs ih =>
    rw [List.cons_append, List.takeWhile_cons_of_pos (h x (List.mem_cons_self x xs)),
      ih fun c hc => h c (List.mem_cons_of_mem x hc), List.cons_append]

theorem dropWhile_append_all {p : Char → Bool} {a : List Char} (b : List Char)
    (h : ∀ c ∈ a, p c = true) : (a ++ b).dropWhile p = b.dropWhile p := by
  induction a with
  | nil => simp
  | cons x xs ih =>
    rw [List.cons_append, List.dropWhile_cons_of_pos (h x (List.mem_cons_self x xs)),
      ih fun c hc => h c (List.mem_cons_of_mem x hc)]

theorem mem_format2 {x : PyF} {c : Char} (h : c ∈ format2 x) :
    c = '-' ∨ c = '.' ∨ c.isDigit = true := by
  unfold format2 at h
  rcases List.mem_append.mp h with h | h
  · rcases List.mem_append.mp h with h | h
    · by_cases hn : x.neg
      · rw [if_pos hn] at h
        simp at h
        exact Or.inl h
      · rw [if_neg hn] at h
        simp at h
    · exact Or.inr (Or.inr (natChars_all_digit _ c h))
  · rcases List.mem_cons.mp h with h | h
    · exact Or.inr (Or.inl h)
    · rcases List.mem_cons.mp h with h | h
      · subst h
        exact Or.inr (Or.inr (digitChar_isDigit (Nat.mod_lt _ (by omega))))
      · simp at h
        subst h
        exact Or.inr (Or.inr (digitChar_isDigit (Nat.mod_lt _ (by omega))))

theorem format2_not_ws (x : PyF) : ∀ c ∈ format2 x, Char.isWhitespace c = false := by
  intro c hc
  rcases mem_format2 hc with h | h | h
  · subst h; decide
  · subst h; decide
  · exact isDigit_not_ws h

theorem format2_ne_nil (x : PyF) : format2 x ≠ [] := by
  unfold format2
  intro h
  have := (List.append_eq_nil.mp h).2
  simp at this

theorem removeCommas_format2 (x : PyF) : removeCommas (format2 x) = format2 x := by
  unfold removeCommas
  rw [List.filter_eq_self]
  intro c hc
  rcases mem_format2 hc with h | h | h
  · subst h; decide
  · subst h; decide
  · simp [isDigit_ne_comma h]

theorem stripSeps_digits {l : List Char} (h : ∀ c ∈ l, c.isDigit = true) :
    stripSeps l = l := by
  unfold stripSeps
  rw [List.filter_eq_self]
  intro c hc
  simp [isDigit_ne_comma (h c hc), isDigit_ne_point (h c hc)]

theorem stripSeps_format2 (x : PyF) :
    stripSeps (format2 x) = (if x.neg then ['-'] else []) ++
      (natChars (cents x / 100) ++
        digitChar (cents x / 10 % 10) :: [digitChar (cents x % 10)]) := by
  unfold format2 stripSeps
  rw [List.filter_append, List.filter_append]
  have h1 : List.filter (fun c => !(c = '.' || c = ',')) (if x.neg then ['-'] else []) =
      (if x.neg then ['-'] else []) := by
    by_cases hn : x.neg <;> simp [hn]
  have h2 : List.filter (fun c => !(c = '.' || c = ','))
      (natChars (cents x / 100)) = natChars (cents x / 100) := by
    rw [List.filter_eq_self]
    intro c hc
    have := natChars_all_digit _ c hc
    simp [isDigit_ne_comma this, isDigit_ne_point this]
  have h3 : List.filter (fun c => !(c = '.' || c = ','))
      ('.' :: digitChar (cents x / 10 % 10) :: [digitChar (cents x % 10)]) =
      digitChar (cents x / 10 % 10) :: [digitChar (cents x % 10)] := by
    have d1 := digitChar_isDigit (Nat.mod_lt (cents x / 10) (show 0 < 10 by omega))
    have d0 := digitChar_isDigit (Nat.mod_lt (cents x) (show 0 < 10 by omega))
    simp [List.filter, isDigit_ne_comma d1, isDigit_ne_point d1,
      isDigit_ne_comma d0, isDigit_ne_point d0]
  rw [h1, h2, h3, List.append_assoc]

theorem isNumericTok_format2 (x : PyF) : isNumericTok (format2 x) = true := by
  have hD : isDigits (natChars (cents x / 100) ++
      digitChar (cents x / 10 % 10) :: [digitChar (cents x % 10)]) = true := by
    unfold isDigits
    have hne : natChars (cents x / 100) ++
        digitChar (cents x / 10 % 10) :: [digitChar (cents x % 10)] ≠ [] := by
      simp
    rw [Bool.and_eq_true]
    constructor
    · simp [List.isEmpty_iff]
    · rw [List.all_eq_true]
      intro c hc
      rcases List.mem_append.mp hc with hc | hc
      · exact natChars_all_digit _ c hc
      · rcases List.mem_cons.mp hc with hc | hc
        · subst hc; exact digitChar_isDigit (Nat.mod_lt _ (by omega))
        · simp at hc; subst hc; exact digitChar_isDigit (Nat.mod_lt _ (by omega))
  unfold isNumericTok
  rw [stripSeps_format2]
  by_cases hn : x.neg <;> simp [hn, hD]

/-! ## Parse and format round-trip -/

theorem pyMag?_point_branch (s f : List Char)
    (hdrop : s.dropWhile Char.isDigit = '.' :: f) :
    pyMag? s =
      if f.all Char.isDigit && (!(s.takeWhile Char.isDigit).isEmpty || !f.isEmpty) then
        some ⟨false, parseNatChars (s.takeWhile Char.isDigit) * 10 ^ f.length + parseNatChars f,
          10 ^ f.length⟩
      else none := by
  unfold pyMag?
  rw [hdrop]
  rfl

theorem pyMag?_format2_body (x : PyF) :
    pyMag? (natChars (cents x / 100) ++
      '.' :: digitChar (cents x / 10 % 10) :: [digitChar (cents x % 10)]) =
      some ⟨false, cents x, 100⟩ := by
  set c := cents x with hc
  have hall : ∀ ch ∈ natChars (c / 100), Char.isDigit ch = true := natChars_all_digit _
  have d1 : (digitChar (c / 10 % 10)).isDigit = true :=
    digitChar_isDigit (Nat.mod_lt _ (by omega))
  have d0 : (digitChar (c % 10)).isDigit = true := digitChar_isDigit (Nat.mod_lt _ (by omega))
  have hdrop : (natChars (c / 100) ++
      '.' :: digitChar (c / 10 % 10) :: [digitChar (c % 10)]).dropWhile Char.isDigit =
      '.' :: digitChar (c / 10 % 10) :: [digitChar (c % 10)] := by
    rw [dropWhile_append_all _ hall, List.dropWhile_cons_of_neg (by decide)]
  have htake : (natChars (c / 100) ++
      '.' :: digitChar (c / 10 % 10) :: [digitChar (c % 10)]).takeWhile Char.isDigit =
      natChars (c / 100) := by
    rw [takeWhile_append_all _ hall, List.takeWhile_cons_of_neg (by decide)]
    simp
  rw [pyMag?_point_branch _ _ hdrop, htake]
  have hcond : (List.all [digitChar (c / 10 % 10), digitChar (c % 10)] Char.isDigit &&
      (!(natChars (c / 100)).isEmpty || !([digitChar (c / 10 % 10), digitChar (c % 10)]).isEmpty)) =
      true := by
    simp [d1, d0]
  rw [if_pos hcond]
  have hnum : parseNatChars (natChars (c / 100)) * 10 ^ ([digitChar (c / 10 % 10),
      digitChar (c % 10)]).length + parseNatChars [digitChar (c / 10 % 10), digitChar (c % 10)] =
      c := by
    rw [parseNatChars_natChars]
    have e1 : parseNatChars [digitChar (c / 10 % 10), digitChar (c % 10)] =
        (c / 10 % 10) * 10 + c % 10 := by
      unfold parseNatChars
      simp [List.foldl, digVal_digitChar (Nat.mod_lt (c / 10) (show 0 < 10 by omega)),
        digVal_digitChar (Nat.mod_lt c (show 0 < 10 by omega))]
    rw [e1]
    have hlen : ([digitChar (c / 10 % 10), digitChar (c % 10)]).length = 2 := rfl
    rw [hlen]
    omega
  rw [hnum]
  have hden : (10 : Nat) ^ ([digitChar (c / 10 % 10), digitChar (c % 10)]).length = 100 := rfl
  rw [hden]

theorem pyFloat?_head_digit {s : List Char} {c : Char} (hh : s.head? = some c)
    (hc : c.isDigit = true) : pyFloat? s = pyMag? s := by
  cases s with
  | nil => simp at hh
  | cons a t =>
    have ha : a = c := by simpa using hh
    subst ha
    unfold pyFloat?
    split
    · rename_i heq
      rw [List.cons.injEq] at heq
      rw [heq.1] at hc
      simp at hc
    · rename_i heq
      rw [List.cons.injEq] at heq
      rw [heq.1] at hc
      simp at hc
    · rfl

theorem pyFloat?_format2 (x : PyF) :
    pyFloat? (format2 x) = some ⟨x.neg, cents x, 100⟩ := by
  cases hn : x.neg
  · have hform : format2 x = natChars (cents x / 100) ++
        '.' :: digitChar (cents x / 10 % 10) :: [digitChar (cents x % 10)] := by
      unfold format2
      rw [hn]
      simp
    rw [hform]
    obtain ⟨ch, tl, hnc⟩ : ∃ ch tl, natChars (cents x / 100) = ch :: tl := by
      cases h : natChars (cents x / 100) with
      | nil => exact absurd h (natChars_ne_nil _)
      | cons a b => exact ⟨a, b, rfl⟩
    have hch : ch.isDigit = true := by
      apply natChars_all_digit (cents x / 100)
      rw [hnc]
      exact List.mem_cons_self ch tl
    have hhead : (natChars (cents x / 100) ++
        '.' :: digitChar (cents x / 10 % 10) :: [digitChar (cents x % 10)]).head? = some ch := by
      rw [List.head?_append_of_ne_nil _ (by rw [hnc]; simp), hnc]
      rfl
    rw [pyFloat?_head_digit hhead hch, pyMag?_format2_body]
  · have hform : format2 x = '-' :: (natChars (cents x / 100) ++
        '.' :: digitChar (cents x / 10 % 10) :: [digitChar (cents x % 10)]) := by
      unfold format2
      rw [hn]
      simp
    rw [hform]
    show (pyMag? _).map _ = _
    rw [pyMag?_format2_body]
    rfl

theorem cents_over_100 (b : Bool) (c : Nat) : cents ⟨b, c, 100⟩ = c := by
  unfold cents
  show (200 * c + 100) / (2 * 100) = c
  have : (2 : Nat) * 100 = 200 := by norm_num
  rw [this, Nat.mul_add_div (by norm_num)]
  norm_num

theorem format2_reparse (x : PyF) : format2 ⟨x.neg, cents x, 100⟩ = format2 x := by
  unfold format2
  rw [cents_over_100]

theorem PyF_mul_pyOne (v : PyF) : PyF.mul v pyOne = v := by
  cases v with
  | mk b n d => simp [PyF.mul, pyOne]

/-! ## Per-line scaler lemmas -/

theorem scaleLine_passthrough (factor : PyF) (line : List Char)
    (h : lineUnscaled line = true) : scaleLine factor line = line := by
  unfold lineUnscaled at h
  unfold scaleLine
  cases hsp : pySplit line with
  | nil => rfl
  | cons tok rest =>
    rw [hsp] at h
    by_cases hn : isNumericTok tok
    · simp only [hn, Bool.not_true, Bool.false_or] at h
      rw [Option.isNone_iff_eq_none] at h
      simp [hn, h]
    · simp [hn]

theorem scaleLine_numeric (factor x : PyF) (line tok : List Char)
    (rest : List (List Char)) (hsp : pySplit line = tok :: rest)
    (hn : isNumericTok tok = true) (hx : pyFloat? (removeCommas tok) = some x) :
    scaleLine factor line = format2 (x.mul factor) ++ ' ' :: List.intercalate [' '] rest := by
  unfold scaleLine
  rw [hsp]
  simp [hn, hx]

theorem scaleLine_pyOne_rescan (v : PyF) (rest : List (List Char))
    (h1 : ∀ t ∈ rest, t ≠ []) (h2 : ∀ t ∈ rest, ∀ c ∈ t, Char.isWhitespace c = false) :
    scaleLine pyOne (List.intercalate [' '] (format2 v :: rest)) =
      format2 v ++ ' ' :: List.intercalate [' '] rest := by
  have hsp : pySplit (List.intercalate [' '] (format2 v :: rest)) = format2 v :: rest := by
    apply pySplit_intercalate
    · simp
    · intro t ht
      rcases List.mem_cons.mp ht with ht | ht
      · subst ht; exact format2_ne_nil v
      · exact h1 t ht
    · intro t ht
      rcases List.mem_cons.mp ht with ht | ht
      · subst ht; exact format2_not_ws v
      · exact h2 t ht
  rw [scaleLine_numeric pyOne ⟨v.neg, cents v, 100⟩ _ (format2 v) rest hsp
    (isNumericTok_format2 v) (by rw [removeCommas_format2, pyFloat?_format2]),
    PyF_mul_pyOne, format2_reparse]

/-! ## Idempotence machinery -/

theorem head_not_ws_of_head? {o : List Char} {c : Char} (hc : o.head? = some c)
    (hw : Char.isWhitespace c = false) :
    ∀ h : o ≠ [], Char.isWhitespace (o.head h) = false := by
  intro h
  have := List.head?_eq_head h
  rw [this] at hc
  rw [Option.some.inj hc]
  exact hw

theorem getLast_not_ws_of_getLast? {o : List Char} {c : Char} (hc : o.getLast? = some c)
    (hw : Char.isWhitespace c = false) :
    ∀ h : o ≠ [], Char.isWhitespace (o.getLast h) = false := by
  intro h
  have := List.getLast?_eq_getLast o h
  rw [this] at hc
  rw [Option.some.inj hc]
  exact hw

theorem pyStrip_format2 (v : PyF) : pyStrip (format2 v) = format2 v := by
  apply pyStrip_eq_self
  · intro h
    exact format2_not_ws v _ (List.head_mem h)
  · intro h
    exact format2_not_ws v _ (List.getLast_mem h)

theorem pyStrip_numeric_out (v : PyF) (rest : List (List Char))
    (h1 : ∀ t ∈ rest, t ≠ []) (h2 : ∀ t ∈ rest, ∀ c ∈ t, Char.isWhitespace c = false) :
    pyStrip (format2 v ++ ' ' :: List.intercalate [' '] rest) =
      List.intercalate [' '] (format2 v :: rest) := by
  cases rest with
  | nil =>
    rw [intercalate_singleton]
    have : List.intercalate [' '] ([] : List (List Char)) = [] := rfl
    rw [this]
    exact (pyStrip_concat_ws (format2 v) ' ' (by decide)).trans (pyStrip_format2 v)
  | cons t2 ts2 =>
    have hX : List.intercalate [' '] (t2 :: ts2) ≠ [] :=
      intercalate_cons_ne_nil [' '] t2 ts2 (h1 t2 (List.mem_cons_self t2 ts2))
    have hgoal : List.intercalate [' '] (format2 v :: t2 :: ts2) =
        format2 v ++ ' ' :: List.intercalate [' '] (t2 :: ts2) := by
      rw [intercalate_cons_cons, List.append_assoc]
      rfl
    rw [hgoal]
    apply pyStrip_eq_self
    · obtain ⟨ch, tl, hf⟩ : ∃ ch tl, format2 v = ch :: tl := by
        cases h : format2 v with
        | nil => exact absurd h (format2_ne_nil v)
        | cons a b => exact ⟨a, b, rfl⟩
      have hh : (format2 v ++ ' ' :: List.intercalate [' '] (t2 :: ts2)).head? = some ch := by
        rw [List.head?_append_of_ne_nil _ (by rw [hf]; simp), hf]
        rfl
      exact head_not_ws_of_head? hh (format2_not_ws v ch (by rw [hf]; exact List.mem_cons_self ch tl))
    · obtain ⟨t, ht, he⟩ := getLast?_intercalate_toks (t2 :: ts2) (by simp)
        fun x hx => h1 x hx
      have htne : t ≠ [] := h1 t ht
      have hlast : (format2 v ++ ' ' :: List.intercalate [' '] (t2 :: ts2)).getLast? =
          t.getLast? := by
        rw [List.getLast?_append_of_ne_nil _ (by simp)]
        have : (' ' :: List.intercalate [' '] (t2 :: ts2)) =
            [' '] ++ List.intercalate [' '] (t2 :: ts2) := rfl
        rw [this, List.getLast?_append_of_ne_nil _ hX, he]
      rw [List.getLast?_eq_getLast t htne] at hlast
      exact getLast_not_ws_of_getLast? hlast
        (h2 t ht _ (List.getLast_mem htne))

theorem scaleLine_pass2 (l : List Char) (h1 : l ≠ []) (h2 : pyStrip l = l)
    (h3 : ∀ c ∈ l, c ≠ '\n') :
    (∀ c ∈ scaleLine pyOne l, c ≠ '\n') ∧ pyStrip (scaleLine pyOne l) ≠ [] ∧
      scaleLine pyOne (pyStrip (scaleLine pyOne l)) = scaleLine pyOne l := by
  by_cases hu : lineUnscaled l = true
  · have he := scaleLine_passthrough pyOne l hu
    rw [he, h2]
    exact ⟨h3, h1, he⟩
  · have hnum : ∃ tok rest x, pySplit l = tok :: rest ∧ isNumericTok tok = true ∧
        pyFloat? (removeCommas tok) = some x := by
      unfold lineUnscaled at hu
      cases hsp : pySplit l with
      | nil => rw [hsp] at hu; simp at hu
      | cons tok rest =>
        rw [hsp] at hu
        by_cases hn : isNumericTok tok
        · cases hx : pyFloat? (removeCommas tok) with
          | none => simp [hn, hx] at hu
          | some x => exact ⟨tok, rest, x, rfl, hn, hx⟩
        · simp [hn] at hu
    obtain ⟨tok, rest, x, hsp, hn, hx⟩ := hnum
    have hout := scaleLine_numeric pyOne x l tok rest hsp hn hx
    have hr1 : ∀ t ∈ rest, t ≠ [] := fun t ht =>
      mem_pySplit_ne_nil (by rw [hsp]; exact List.mem_cons_of_mem tok ht)
    have hr2 : ∀ t ∈ rest, ∀ c ∈ t, Char.isWhitespace c = false := fun t ht =>
      mem_pySplit_not_ws (by rw [hsp]; exact List.mem_cons_of_mem tok ht)
    have hps := pyStrip_numeric_out (x.mul pyOne) rest hr1 hr2
    refine ⟨?_, ?_, ?_⟩
    · intro c hc
      rw [hout] at hc
      rcases List.mem_append.mp hc with hc | hc
      · exact not_ws_ne_nl (format2_not_ws _ c hc)
      · rcases List.mem_cons.mp hc with hc | hc
        · subst hc; decide
        · rcases mem_intercalate_sep c hc with hc | ⟨t, ht, hc⟩
          · subst hc; decide
          · exact not_ws_ne_nl (hr2 t ht c hc)
    · rw [hout, hps]
      exact intercalate_cons_ne_nil [' '] _ rest (format2_ne_nil _)
    · rw [hout, hps, scaleLine_pyOne_rescan (x.mul pyOne) rest hr1 hr2]

theorem scale_pyOne_outs (L : List (List Char))
    (hL : ∀ l ∈ L, l ≠ [] ∧ pyStrip l = l ∧ (∀ c ∈ l, c ≠ '\n')) :
    scaleIngredients pyOne (List.intercalate ['\n'] (L.map (scaleLine pyOne))) =
      List.intercalate ['\n'] (L.map (scaleLine pyOne)) := by
  cases hLn : L with
  | nil => decide
  | cons l0 ls0 =>
    rw [← hLn]
    have outs : ∀ o ∈ L.map (scaleLine pyOne),
        (∀ c ∈ o, c ≠ '\n') ∧ pyStrip o ≠ [] ∧ scaleLine pyOne (pyStrip o) = o := by
      intro o ho
      obtain ⟨l, hl, rfl⟩ := List.mem_map.mp ho
      obtain ⟨hne, hst, hnl⟩ := hL l hl
      exact scaleLine_pass2 l hne hst hnl
    unfold scaleIngredients
    have hsplit : splitNl (List.intercalate ['\n'] (L.map (scaleLine pyOne))) =
        L.map (scaleLine pyOne) := by
      unfold splitNl
      apply splitWhen_intercalate _ '\n' (by decide)
      · rw [hLn]; simp
      · intro l hl c hc
        exact decide_eq_false ((outs l hl).1 c hc)
    rw [hsplit]
    have hfilter : ((L.map (scaleLine pyOne)).map pyStrip).filter (fun l => !l.isEmpty) =
        (L.map (scaleLine pyOne)).map pyStrip := by
      rw [List.filter_eq_self]
      intro t ht
      obtain ⟨o, ho, rfl⟩ := List.mem_map.mp ht
      simp [List.isEmpty_iff, (outs o ho).2.1]
    rw [hfilter, List.map_map]
    have hmap : (L.map (scaleLine pyOne)).map (scaleLine pyOne ∘ pyStrip) =
        L.map (scaleLine pyOne) := by
      have := List.map_congr_left (l := L.map (scaleLine pyOne))
        (f := scaleLine pyOne ∘ pyStrip) (g := id) (fun o ho => (outs o ho).2.2)
      rw [this, List.map_id]
    rw [hmap]

/-! ## Claim theorems -/

/-- Claim C1 (code bug in the source): the name-uniqueness invariant is
reachable-state violated.  Add a recipe "A", press new, add a recipe "B",
select "B", then save it under the name "A": `save_recipe` skips the
duplicate check because a recipe is selected, and the store ends with two
recipes named "A". -/
theorem c1_duplicate_names_reachable :
    (save_recipe
        (select_recipe
          (save_recipe (new_recipe (save_recipe ⟨[], none⟩ ⟨"A", "flour", "mix", 1⟩).1)
            ⟨"B", "eggs", "bake", 2⟩).1
          ("B"))
        ⟨"A", "eggs", "bake", 2⟩) =
      (⟨[⟨"A", "flour", "mix", 1⟩, ⟨"A", "eggs", "bake", 2⟩], some 1⟩, none) ∧
      (save_recipe
        (select_recipe
          (save_recipe (new_recipe (save_recipe ⟨[], none⟩ ⟨"A", "flour", "mix", 1⟩).1)
            ⟨"B", "eggs", "bake", 2⟩).1
          ("B"))
        ⟨"A", "eggs", "bake", 2⟩).1.recipes.map Recipe.name = ["A", "A"] := by
  exact ⟨by decide, by decide⟩

/-- Claim C2, counterexample: the spec's example output is wrong for the
code.  On `"2 cups flour\n1 tsp salt"` with factor `2.0` the second line is
not returned as written, since `"1"` passes the digit test and is scaled. -/
theorem c2_counterexample :
    scaleIngredients pyTwo (("2 cups flour\n1 tsp salt").data) ≠
      ("4.00 cups flour\n1 tsp salt").data := by
  decide

/-- Claim C2, amended: scaling `"2 cups flour\n1 tsp salt"` by `2.0` scales
both lines, returning `"4.00 cups flour\n2.00 tsp salt"`. -/
theorem c2_amended_both_lines_scaled :
    scaleIngredients pyTwo (("2 cups flour\n1 tsp salt").data) =
      ("4.00 cups flour\n2.00 tsp salt").data := by
  decide

/-- Claim C3: an ingredient line whose first whitespace-separated token
passes the stripped-digit test and parses as a number is rebuilt as the
parsed value times the factor, formatted with exactly two decimals,
followed by a single space and the remaining tokens joined by single
spaces; negative tokens such as `"-3"` are recognized while fractions such
as `"1/2"` are not. -/
theorem c3_numeric_scaling :
    (∀ (factor x : PyF) (line tok : List Char) (rest : List (List Char)),
        pySplit line = tok :: rest →
        isNumericTok tok = true →
        pyFloat? (removeCommas tok) = some x →
        scaleLine factor line = format2 (x.mul factor) ++ ' ' :: List.intercalate [' '] rest) ∧
      isNumericTok (("-3").data) = true ∧ isNumericTok (("1/2").data) = false := by
  exact ⟨fun factor x line tok rest hsp hn hx =>
    scaleLine_numeric factor x line tok rest hsp hn hx, by decide, by decide⟩

/-- Witness for C3 at the spec's own example: `"-3 eggs"` at factor `2.0`
becomes `"-6.00 eggs"`. -/
theorem c3_numeric_scaling_witness :
    scaleLine pyTwo (("-3 eggs").data) = ("-6.00 eggs").data := by
  have h := c3_numeric_scaling.1 pyTwo ⟨true, 3, 1⟩ (("-3 eggs").data)
    (("-3").data) [("eggs").data] (by decide) (by decide) (by decide)
  exact h.trans (by decide)

/-- Claim C4: a line whose first token is not recognized as numeric, or
whose token fails to parse, passes through the scaler unchanged. -/
theorem c4_nonnumeric_passthrough :
    ∀ (factor : PyF) (line : List Char), lineUnscaled line = true →
      scaleLine factor line = line :=
  scaleLine_passthrough

/-- Witness for C4 at the spec's own example: `"a pinch of salt"` is
unchanged at factor `2.0`. -/
theorem c4_nonnumeric_passthrough_witness :
    scaleLine pyTwo (("a pinch of salt").data) = ("a pinch of salt").data :=
  c4_nonnumeric_passthrough pyTwo (("a pinch of salt").data) (by decide)

/-- Claim C5: with no recipe selected (an add) and valid stripped fields,
`save_recipe` fails with the duplicate-name error exactly when a recipe of
that name already exists; otherwise it appends the submitted recipe,
selects it, and the collection then holds exactly one recipe of that
name with exactly the submitted fields. -/
theorem c5_add_semantics (st : AppState) (form : RecipeForm)
    (hcur : st.current = none)
    (hname : (pyStripS form.name).isEmpty = false)
    (hing : (pyStripS form.ingredients).isEmpty = false)
    (hins : (pyStripS form.instructions).isEmpty = false)
    (hserv : 0 < form.servings) :
    (st.recipes.any (fun r => r.name == pyStripS form.name) = true →
        save_recipe st form = (st, some SaveError.duplicateName)) ∧
      (st.recipes.any (fun r => r.name == pyStripS form.name) = false →
        save_recipe st form =
          (⟨st.recipes ++ [⟨pyStripS form.name, pyStripS form.ingredients,
              pyStripS form.instructions, form.servings⟩], some st.recipes.length⟩, none) ∧
          (st.recipes ++ [(⟨pyStripS form.name, pyStripS form.ingredients,
              pyStripS form.instructions, form.servings⟩ : Recipe)]).countP
            (fun r => r.name == pyStripS form.name) = 1) := by
  have hservle : ¬form.servings ≤ 0 := by omega
  constructor
  · intro hdup
    simp [save_recipe, hcur, hname, hing, hins, hservle, hdup]
  · intro hnodup
    constructor
    · simp [save_recipe, hcur, hname, hing, hins, hservle, hnodup]
    · rw [List.countP_append]
      have h0 : st.recipes.countP (fun r => r.name == pyStripS form.name) = 0 := by
        rw [List.countP_eq_zero]
        intro a ha
        have := List.any_eq_false.mp hnodup a ha
        simpa using this
      rw [h0]
      simp [List.countP_cons]

/-- Witness for C5: adding a recipe to the empty store succeeds and stores
exactly the submitted fields. -/
theorem c5_add_semantics_witness :
    save_recipe ⟨[], none⟩ ⟨"Pie", "apples", "bake", 4⟩ =
      (⟨[⟨"Pie", "apples", "bake", 4⟩], some 0⟩, none) := by
  have h := (c5_add_semantics ⟨[], none⟩ ⟨"Pie", "apples", "bake", 4⟩ rfl
    (by decide) (by decide) (by decide) (by decide)).2 (by decide)
  exact h.1.trans (by decide)

/-- Claim C7: an empty stripped name, empty stripped ingredients, empty
stripped instructions, or non-positive servings makes `save_recipe` fail
with one of the validation errors and leaves the state unchanged. -/
theorem c7_validation_rejected (st : AppState) (form : RecipeForm)
    (h : (pyStripS form.name).isEmpty = true ∨ (pyStripS form.ingredients).isEmpty = true ∨
      (pyStripS form.instructions).isEmpty = true ∨ form.servings ≤ 0) :
    ∃ e, save_recipe st form = (st, some e) ∧ e.isValidation = true := by
  by_cases h1 : (pyStripS form.name).isEmpty
  · exact ⟨SaveError.emptyName, by simp [save_recipe, h1], rfl⟩
  · by_cases h2 : (pyStripS form.ingredients).isEmpty
    · exact ⟨SaveError.emptyIngredients, by simp [save_recipe, h1, h2], rfl⟩
    · by_cases h3 : (pyStripS form.instructions).isEmpty
      · exact ⟨SaveError.emptyInstructions, by simp [save_recipe, h1, h2, h3], rfl⟩
      · by_cases h4 : form.servings ≤ 0
        · exact ⟨SaveError.nonPositiveServings, by simp [save_recipe, h1, h2, h3, h4], rfl⟩
        · rcases h with h | h | h | h
          · exact absurd h h1
          · exact absurd h h2
          · exact absurd h h3
          · exact absurd h h4

/-- Witness for C7: an all-whitespace name is rejected on the empty store,
which is left unchanged. -/
theorem c7_validation_rejected_witness :
    ∃ e, save_recipe ⟨[], none⟩ ⟨" ", "i", "s", 1⟩ = (⟨[], none⟩, some e) ∧
      e.isValidation = true :=
  c7_validation_rejected ⟨[], none⟩ ⟨" ", "i", "s", 1⟩ (Or.inl (by decide))

/-- Claim C8: reading the persisted records and writing them back is the
identity on the persisted representation, preserving order and every field,
for any non-empty collection. -/
theorem c8_save_load_roundtrip (l : List StoredRecipe) (_h : l ≠ []) :
    save_recipes (load_recipes l) = l := by
  clear _h
  induction l with
  | nil => rfl
  | cons d t ih =>
    simp only [load_recipes, save_recipes, List.map_cons] at ih ⊢
    rw [ih]

/-- Witness for C8 on a one-recipe collection. -/
theorem c8_save_load_roundtrip_witness :
    ([⟨"Stew", "1 carrot", "simmer", 2⟩] : List StoredRecipe) ≠ [] ∧
      save_recipes (load_recipes [⟨"Stew", "1 carrot", "simmer", 2⟩]) =
        [⟨"Stew", "1 carrot", "simmer", 2⟩] :=
  ⟨by decide, c8_save_load_roundtrip _ (by decide)⟩

/-- Claim C9: scaling a selected recipe whose stored servings are zero or
negative fails with the invalid-servings error; the state and the
ingredient editor text come back unchanged. -/
theorem c9_invalid_servings (st : AppState) (i : Nat) (r : Recipe) (newServings : Int)
    (text : String) (hcur : st.current = some i) (hr : st.recipes[i]? = some r)
    (hs : r.servings ≤ 0) :
    scale_recipe st newServings text = (st, text, some ScaleError.invalidServings) := by
  simp [scale_recipe, hcur, hr, hs]

/-- Witness for C9 on a recipe stored with zero servings. -/
theorem c9_invalid_servings_witness :
    scale_recipe ⟨[⟨"Soup", "2 cups water", "boil", 0⟩], some 0⟩ 4 ("2 cups water") =
      (⟨[⟨"Soup", "2 cups water", "boil", 0⟩], some 0⟩, "2 cups water",
        some ScaleError.invalidServings) :=
  c9_invalid_servings _ 0 ⟨"Soup", "2 cups water", "boil", 0⟩ 4 ("2 cups water")
    rfl (by decide) (by decide)

/-- Claim C6: scaling with factor `1.0` is idempotent — applying the
ingredient transform at factor one a second time reproduces the first
output exactly, the recognized numeric quantities staying in their
normalized two-decimal form. -/
theorem c6_scale_one_idempotent (text : List Char) :
    scaleIngredients pyOne (scaleIngredients pyOne text) = scaleIngredients pyOne text := by
  have hfacts : ∀ l ∈ ((splitNl text).map pyStrip).filter (fun l => !l.isEmpty),
      l ≠ [] ∧ pyStrip l = l ∧ (∀ c ∈ l, c ≠ '\n') := by
    intro l hl
    obtain ⟨hmem, hne⟩ := List.mem_filter.mp hl
    obtain ⟨l0, hl0, rfl⟩ := List.mem_map.mp hmem
    refine ⟨?_, pyStrip_idem l0, ?_⟩
    · simpa [List.isEmpty_iff] using hne
    · intro c hc
      have hc0 := mem_pyStrip hc
      unfold splitNl at hl0
      exact of_decide_eq_false (mem_splitWhen_not _ text l0 hl0 c hc0)
  exact scale_pyOne_outs _ hfacts

/-- Claim C10: the scaler is total, each line landing in one of the two
branches: either it passes through unchanged, or its first token is
recognized, parses, and is rebuilt scaled.  In particular `"1.2.3"` passes
the digit test, fails `float()`, and its line passes through at every
factor. -/
theorem c10_scaler_total :
    (∀ (factor : PyF) (line : List Char),
        scaleLine factor line = line ∨
          ∃ tok rest x, pySplit line = tok :: rest ∧ isNumericTok tok = true ∧
            pyFloat? (removeCommas tok) = some x ∧
            scaleLine factor line = format2 (x.mul factor) ++ ' ' :: List.intercalate [' '] rest) ∧
      isNumericTok (("1.2.3").data) = true ∧
      pyFloat? (removeCommas (("1.2.3").data)) = none ∧
      (∀ factor : PyF, scaleIngredients factor (("1.2.3 cups flour").data) =
        ("1.2.3 cups flour").data) := by
  refine ⟨?_, by decide, by decide, ?_⟩
  · intro factor line
    by_cases hu : lineUnscaled line = true
    · exact Or.inl (scaleLine_passthrough factor line hu)
    · right
      unfold lineUnscaled at hu
      cases hsp : pySplit line with
      | nil => rw [hsp] at hu; simp at hu
      | cons tok rest =>
        rw [hsp] at hu
        by_cases hn : isNumericTok tok
        · cases hx : pyFloat? (removeCommas tok) with
          | none => simp [hn, hx] at hu
          | some x =>
            exact ⟨tok, rest, x, rfl, hn, hx, scaleLine_numeric factor x line tok rest hsp hn hx⟩
        · simp [hn] at hu
  · intro factor
    have hline : ((splitNl (("1.2.3 cups flour").data)).map pyStrip).filter
        (fun l => !l.isEmpty) = [("1.2.3 cups flour").data] := by decide
    show List.intercalate ['\n'] ((((splitNl (("1.2.3 cups flour").data)).map pyStrip).filter
        (fun l => !l.isEmpty)).map (scaleLine factor)) = ("1.2.3 cups flour").data
    rw [hline]
    have hpass : scaleLine factor (("1.2.3 cups flour").data) = ("1.2.3 cups flour").data :=
      scaleLine_passthrough factor _ (by decide)
    rw [List.map_cons, List.map_nil, hpass, intercalate_singleton]
